import Mathlib

/-!
# Verification of the `radix.py` number transcoding engine

This file gives a shallow embedding of the core of `radix.py` (class `Radix`:
construction, the alphabet presets, `encode`, `_fill_template`, `decode`) and
proves or refutes the specification claims about it.

Modelling conventions:

* Python strings are `List Char`; every symbol of the shipped alphabets is a
  single character, as in the source.
* Python's arbitrary-precision integers are `ℤ`/`ℕ`.
* A Python float argument of `encode` is modelled exactly, as the rational
  `num / den` it denotes (every IEEE double is such a rational).  The
  fractional digit loop `index, fraction = divmod(fraction*self.base, 1)` is
  modelled by exact integer arithmetic on the numerator with the denominator
  fixed: `index = (num*base) / den`, `fraction = ((num*base) % den) / den`.
  This coincides with the source whenever the intermediate float values are
  exact (all concrete inputs evaluated below are dyadic rationals for which
  every step of the Python computation is exact in binary64).
* The template string the source builds with Python's `format` mini-language
  (`format(float("111.111"), ".3f")` etc.) is modelled by its digit-slot
  structure: an optional `'-'`, one `'1'` slot per integer digit, and, for a
  positive scale, `'.'` followed by one `'1'` slot per fractional digit.
  `_fill_template` only inspects the character class of each template
  character (ASCII digit / zero or nonzero / `'-'` / `'.'` / `','` / `'+'`),
  and for the ranges relevant to the claims the rendered float always has
  exactly this sign/slot/separator structure, so the model is behaviourally
  faithful.
* `decode` accumulates `self.digits.index(digit) * (self.base ** exponent)`;
  with a separator present the negative powers are Python floats.  The model
  sums exact rationals instead; the error behaviour (which characters raise
  `ValueError`) is identical, and for separator-free inputs the value
  arithmetic is identical integer arithmetic.
-/

/-- The `Radix` object: the digit alphabet and the special symbols, mirroring
the fields set by `Radix.__init__` (`digits, sep, neg, tsep, pos, exp`). -/
structure Radix where
  digits : List Char
  sep : Char
  neg : Char
  tsep : Char
  pos : Char
  exp : Char
deriving DecidableEq

/-- `Radix.__init__(digits, sep='.', neg='-', tsep=',', pos='+', exp='e')`:
it assigns the fields and performs no validation whatsoever. -/
def Radix.init (digits : List Char) (sep neg tsep pos exp : Char) : Radix :=
  ⟨digits, sep, neg, tsep, pos, exp⟩

/-- The `base` property: `self._base`, which the `digits` setter recomputes as
`len(digits)` on every assignment, so it always equals `len(self.digits)`. -/
def Radix.base (r : Radix) : ℕ := r.digits.length

/-- The `digits` setter (`@digits.setter`): stores the new digit string and
recomputes `self._base = len(digits)`. -/
def Radix.setDigits (r : Radix) (d : List Char) : Radix :=
  ⟨d, r.sep, r.neg, r.tsep, r.pos, r.exp⟩

/-- `self.digits[index]`.  Python raises `IndexError` when out of range; the
claims below only ever look up indexes that are proved in range. -/
def Radix.digitSym (r : Radix) (i : ℕ) : Char := r.digits.getD i ' '

/-- `string.digits + string.ascii_uppercase + string.ascii_lowercase`, the
symbol pool `by_base` slices from. -/
def poolChars : List Char :=
  "0123456789ABCDEFGHIJKLMNOPQRSTUVWXYZabcdefghijklmnopqrstuvwxyz".toList

/-- `Radix.by_base(base)`: slices the 62-symbol pool to `abs(base)` symbols.
Python slicing clamps silently, so no error is ever raised. -/
def Radix.by_base (n : ℤ) : Radix :=
  Radix.init (poolChars.take n.natAbs) '.' '-' ',' '+' 'e'

/-- The base-10 alphabet `Radix("0123456789")`, used as concrete instance. -/
def base10 : Radix := Radix.init "0123456789".toList '.' '-' ',' '+' 'e'

/-- `Radix.hex()`: `Radix(string.digits + "ABCDEF")`. -/
def Radix.hexUpper : Radix := Radix.init "0123456789ABCDEF".toList '.' '-' ',' '+' 'e'

/-- One step list of remainders: `digitsLEGo b fuel n` unwinds the loop
`while integer: integer, index = divmod(integer, base)` (least significant
digit first), with structural fuel so the kernel can evaluate it.  For
`fuel ≥ n` and `b ≥ 2` it equals `Nat.digits b n`. -/
def digitsLEGo (b : ℕ) : ℕ → ℕ → List ℕ
  | 0, _ => []
  | _ + 1, 0 => []
  | fuel + 1, m + 1 => (m + 1) % b :: digitsLEGo b fuel ((m + 1) / b)

/-- Little-endian digit list of `n` in base `b` (the loop's remainders in
the order they are produced). -/
def digitsLE (b n : ℕ) : List ℕ := digitsLEGo b n n

/-- The integer-part index list of `Radix.encode` (lines 221–226): most
significant digit first, and a single zero digit when the integer part is 0. -/
def intIndexes (b n : ℕ) : List ℕ :=
  if n = 0 then [0] else (digitsLE b n).reverse

/-- Big-endian digit value: the number denoted by a most-significant-first
digit list. -/
def ofDigitsBE (b : ℕ) (l : List ℕ) : ℕ := Nat.ofDigits b l.reverse

/-- The fractional digit loop of `Radix.encode` (lines 258–260):
`for i in range(scale): index, fraction = divmod(fraction*self.base, 1)`,
on the exact fraction `fnum/fden`.  Returns the generated digits (most
significant first) and the numerator of the final remainder. -/
def fracDigitsN (b fden : ℕ) : ℕ → ℕ → List ℕ × ℕ
  | 0, fnum => ([], fnum)
  | s + 1, fnum =>
    let p := fracDigitsN b fden s ((fnum * b) % fden)
    ((fnum * b) / fden :: p.1, p.2)

/-- The carry walk of `Radix.encode` (lines 263–272) on the reversed
(least-significant-first) index list: set a digit that would reach `base`
to 0 and continue, otherwise increment and stop; if the carry survives the
whole list, a new leading 1 is produced (Python's `indexes.insert(0, 1)`).
The source's `type(indexes[i]) is not int` guard is vestigial: every entry
of `indexes` is an `int`. -/
def incAux (b : ℕ) : List ℕ → List ℕ
  | [] => [1]
  | d :: t => if d + 1 = b then 0 :: incAux b t else (d + 1) :: t

/-- The carry walk on the most-significant-first index list. -/
def incDigits (b : ℕ) (l : List ℕ) : List ℕ := (incAux b l.reverse).reverse

/-- Lines 219–272 of `Radix.encode`: integer-part digits, `scale` fractional
digits, then round up (with carry) exactly when the remaining fraction
satisfies `fraction > 0.5`, i.e. `fnum/fden > 1/2`, i.e. `fden < 2*fnum`. -/
def roundedIndexes (b ip fnum fden scale : ℕ) : List ℕ :=
  if fden < 2 * (fracDigitsN b fden scale fnum).2
  then incDigits b (intIndexes b ip ++ (fracDigitsN b fden scale fnum).1)
  else intIndexes b ip ++ (fracDigitsN b fden scale fnum).1

/-- `char in string.digits`. -/
def isTplDigit (c : Char) : Bool := c.isDigit

/-- `char in string.digits[1:]` (a nonzero ASCII digit). -/
def isTplNonzero (c : Char) : Bool := c.isDigit && c != '0'

/-- `Radix._fill_template` (lines 300–321): walk the template; the first
nonzero ASCII digit ends the left-fill region; digit slots pop the next
encoded digit once left-fill has ended (zero digit otherwise), and the
special characters `- . , +` are replaced by the configured symbols. -/
def fillTemplate (r : Radix) : List Char → List Char → Bool → List Char
  | [], _, _ => []
  | c :: tpl, ds, lf =>
    let lf' := if lf && isTplNonzero c then false else lf
    if isTplDigit c then
      match ds, lf' with
      | d :: ds', false => d :: fillTemplate r tpl ds' false
      | _, _ => r.digitSym 0 :: fillTemplate r tpl ds lf'
    else if c = '-' then r.neg :: fillTemplate r tpl ds lf'
    else if c = '.' then r.sep :: fillTemplate r tpl ds lf'
    else if c = ',' then r.tsep :: fillTemplate r tpl ds lf'
    else if c = '+' then r.pos :: fillTemplate r tpl ds lf'
    else c :: fillTemplate r tpl ds lf'

/-- The digit-slot structure of the template `Radix.encode` builds and
renders via `format` for a float input: an optional minus, one slot per
integer digit, and for a positive scale a separator plus one slot per
fractional digit (`format(float(k*"1" + "." + scale*"1"), ".{scale}f")`,
negated first when `number < 0`; a scale of 0 renders without the point). -/
def encTemplate (isNeg : Bool) (k scale : ℕ) : List Char :=
  (if isNeg then ['-'] else []) ++ List.replicate k '1' ++
    (if scale = 0 then [] else '.' :: List.replicate scale '1')

/-- `output.rstrip(self.digits[0])` followed by the
`if output.endswith(self.sep): output += self.digits[0]` fix-up
(lines 278–281), phrased on the reversed string. -/
def stripOut (r : Radix) (l : List Char) : List Char :=
  if (l.reverse.dropWhile (· == r.digitSym 0)).head? = some r.sep
  then (r.digitSym 0 :: l.reverse.dropWhile (· == r.digitSym 0)).reverse
  else (l.reverse.dropWhile (· == r.digitSym 0)).reverse

/-- The auto scale `17 - len(indexes)` (line 231), as an integer because the
source lets it go negative (in which case `format` raises `ValueError`). -/
def autoScaleZ (b ip : ℕ) : ℤ := 17 - (intIndexes b ip).length

/-- Digit generation plus template fill for a float input. -/
def encodeCore (r : Radix) (isNeg : Bool) (ip fnum fden scale : ℕ) : List Char :=
  fillTemplate r (encTemplate isNeg (intIndexes r.base ip).length scale)
    ((roundedIndexes r.base ip fnum fden scale).map r.digitSym) true

/-- `Radix.encode(number, fmt)` for a float argument `number = num/den`
(`has_fraction` is always true for a float: `divmod(x, 1)` returns floats)
and `fmt` either `None` or an integer scale.  A scale of 0 is *falsy* in
Python (`if not template_fmt`), so `fmt=0` takes the same auto-scale path as
`fmt=None`, including the final trailing-zero strip (`if has_fraction and
not fmt`).  A negative auto scale makes `format` raise, modelled as `none`. -/
def encodeFloat (r : Radix) (num : ℤ) (den : ℕ) (fmt : Option ℕ) : Option (List Char) :=
  if (if fmt = none ∨ fmt = some 0 then autoScaleZ r.base (num.natAbs / den)
      else ((fmt.getD 0 : ℕ) : ℤ)) < 0 then none
  else if fmt = none ∨ fmt = some 0 then
    some (stripOut r (encodeCore r (decide (num < 0)) (num.natAbs / den)
      (num.natAbs % den) den (autoScaleZ r.base (num.natAbs / den)).toNat))
  else
    some (encodeCore r (decide (num < 0)) (num.natAbs / den)
      (num.natAbs % den) den ((fmt.getD 0 : ℕ) : ℤ).toNat)

/-- `Radix.encode(number)` for an `int` argument with the default format:
`has_fraction` is false, the template is `format(±int(len(indexes)*"1"),
"d")`, i.e. an optional minus followed by one nonzero slot per digit. -/
def encodeInt (r : Radix) (n : ℤ) : List Char :=
  let idx := intIndexes r.base n.natAbs
  fillTemplate r (encTemplate (decide (n < 0)) idx.length 0) (idx.map r.digitSym) true

/-- Result of `Radix.decode`: either the decoded number or the first
character on which `self.digits.index(digit)` raised `ValueError`. -/
inductive DecodeRes where
  | err : Char → DecodeRes
  | val : ℚ → DecodeRes
deriving DecidableEq

/-- Python's `list.index` / `str.index` as a total function: index of the
first occurrence, `none` when absent (where Python raises `ValueError`). -/
def indexIn (l : List Char) (c : Char) : Option ℕ :=
  match l with
  | [] => none
  | d :: t => if d = c then some 0 else (indexIn t c).map (· + 1)

/-- `number.strip()` (only whitespace at the two ends is removed). -/
def stripWS (l : List Char) : List Char :=
  ((l.dropWhile Char.isWhitespace).reverse.dropWhile Char.isWhitespace).reverse

/-- Lines 334–339 of `Radix.decode`: locate the separator to fix the highest
power (`number.index(self.sep) - 1`, or `len(number) - 1` when absent) and
splice the separator out of the string. -/
def sepSplit (r : Radix) (s : List Char) : List Char × ℤ :=
  match indexIn s r.sep with
  | some j => (s.eraseIdx j, (j : ℤ) - 1)
  | none => (s, (s.length : ℤ) - 1)

/-- The digit loop of `Radix.decode` (lines 341–347): look up each character
in the alphabet and accumulate `index * base ** exponent` with the exponent
decreasing by one per character; the first unknown character is the error. -/
def decodeBody (r : Radix) : List Char → ℤ → DecodeRes
  | [], _ => .val 0
  | c :: t, e =>
    match indexIn r.digits c with
    | none => .err c
    | some i =>
      match decodeBody r t (e - 1) with
      | .err c2 => .err c2
      | .val v => .val ((i : ℚ) * (r.base : ℚ) ^ e + v)

/-- Lines 330–332 of `Radix.decode`: drop one leading character when it is
the negative or the positive sign. -/
def signedTail (r : Radix) (s : List Char) : List Char :=
  if s.head? == some r.neg || s.head? == some r.pos then s.tail else s

/-- `Radix.decode` (lines 323–351): strip whitespace, consume one leading
sign (`is_negative` is `number.startswith(self.neg)` on the stripped
string), split out the separator, run the digit loop, negate if negative. -/
def decode (r : Radix) (s : List Char) : DecodeRes :=
  match decodeBody r (sepSplit r (signedTail r (stripWS s))).1
      (sepSplit r (signedTail r (stripWS s))).2 with
  | .err c => .err c
  | .val v => .val (if (stripWS s).head? == some r.neg then -v else v)

/-- The character sequence `Radix.decode` actually runs its digit loop on:
the input after whitespace strip, sign consumption and removal of the first
separator occurrence. -/
def decodeProcessed (r : Radix) (s : List Char) : List Char :=
  (sepSplit r (signedTail r (stripWS s))).1

/-- The exact positional value of a most-significant-first digit list whose
leading digit sits at power `e`:  `Σ l i * b ^ (e - i)`. -/
def digitsValQ (b : ℕ) : List ℕ → ℤ → ℚ
  | [], _ => 0
  | i :: t, e => (i : ℚ) * (b : ℚ) ^ e + digitsValQ b t (e - 1)

/-- Well-formedness of an alphabet as the spec's §3 requires (all presets
satisfy it): at least two distinct digits, and the separator/sign symbols
distinct from the digits, from each other, and not whitespace. -/
def goodRadix (r : Radix) : Prop :=
  2 ≤ r.digits.length ∧ r.digits.Nodup ∧
  r.sep ∉ r.digits ∧ r.neg ∉ r.digits ∧ r.pos ∉ r.digits ∧
  r.neg ≠ r.pos ∧ r.sep ≠ r.neg ∧ r.sep ≠ r.pos ∧
  (∀ c ∈ r.digits, c.isWhitespace = false) ∧
  r.neg.isWhitespace = false ∧ r.pos.isWhitespace = false ∧
  r.sep.isWhitespace = false

instance (r : Radix) : Decidable (goodRadix r) := by
  unfold goodRadix
  infer_instance

/-! ## Basic lemmas about the digit machinery -/

theorem digitsLEGo_eq_digits {b : ℕ} (hb : 2 ≤ b) :
    ∀ fuel n, n ≤ fuel → digitsLEGo b fuel n = Nat.digits b n := by
  intro fuel
  induction fuel with
  | zero =>
    intro n hn
    have : n = 0 := Nat.le_zero.mp hn
    subst this
    simp [digitsLEGo]
  | succ fuel ih =>
    intro n hn
    match n with
    | 0 => simp [digitsLEGo]
    | m + 1 =>
      have hdiv : (m + 1) / b < m + 1 := Nat.div_lt_self (Nat.succ_pos m) (by omega)
      rw [show digitsLEGo b (fuel + 1) (m + 1)
            = (m + 1) % b :: digitsLEGo b fuel ((m + 1) / b) from rfl,
        ih ((m + 1) / b) (by omega),
        Nat.digits_def' (by omega : 1 < b) (Nat.succ_pos m)]

theorem digitsLE_eq_digits {b : ℕ} (hb : 2 ≤ b) (n : ℕ) :
    digitsLE b n = Nat.digits b n :=
  digitsLEGo_eq_digits hb n n le_rfl

theorem intIndexes_ne_nil (b n : ℕ) : intIndexes b n ≠ [] := by
  unfold intIndexes
  split
  · simp
  · match n with
    | 0 => simp_all
    | m + 1 => simp [digitsLE, digitsLEGo]

theorem intIndexes_length_pos (b n : ℕ) : 0 < (intIndexes b n).length :=
  List.length_pos.mpr (intIndexes_ne_nil b n)

theorem intIndexes_lt {b : ℕ} (hb : 2 ≤ b) (n : ℕ) :
    ∀ d ∈ intIndexes b n, d < b := by
  intro d hd
  unfold intIndexes at hd
  split at hd
  · simp at hd
    omega
  · rw [List.mem_reverse, digitsLE_eq_digits hb] at hd
    exact Nat.digits_lt_base (by omega) hd

theorem ofDigitsBE_intIndexes {b : ℕ} (hb : 2 ≤ b) (n : ℕ) :
    ofDigitsBE b (intIndexes b n) = n := by
  unfold ofDigitsBE intIndexes
  split
  · simp_all [Nat.ofDigits_singleton]
  · rw [List.reverse_reverse, digitsLE_eq_digits hb, Nat.ofDigits_digits]

theorem ofDigitsBE_nil (b : ℕ) : ofDigitsBE b [] = 0 := rfl

theorem ofDigitsBE_cons (b d : ℕ) (t : List ℕ) :
    ofDigitsBE b (d :: t) = ofDigitsBE b t + d * b ^ t.length := by
  unfold ofDigitsBE
  rw [List.reverse_cons, Nat.ofDigits_append]
  simp [Nat.ofDigits_singleton, mul_comm]

theorem ofDigitsBE_append (b : ℕ) (u v : List ℕ) :
    ofDigitsBE b (u ++ v) = ofDigitsBE b u * b ^ v.length + ofDigitsBE b v := by
  unfold ofDigitsBE
  rw [List.reverse_append, Nat.ofDigits_append]
  simp [mul_comm, Nat.add_comm]

/-! ## Lemmas about `indexIn`, `eraseIdx`, whitespace stripping -/

theorem indexIn_eq_none_iff (l : List Char) (c : Char) :
    indexIn l c = none ↔ c ∉ l := by
  induction l with
  | nil => simp [indexIn]
  | cons d t ih =>
    by_cases h : d = c
    · subst h
      simp [indexIn]
    · simp [indexIn, h, Option.map_eq_none', ih, Ne.symm h]

theorem indexIn_getD (l : List Char) (nd : l.Nodup) :
    ∀ i, i < l.length → indexIn l (l.getD i ' ') = some i := by
  induction l with
  | nil => simp
  | cons d t ih =>
    intro i hi
    match i with
    | 0 => simp [indexIn]
    | j + 1 =>
      have hj : j < t.length := by simpa using hi
      set c := t.getD j ' ' with hcdef
      have hc : (d :: t).getD (j + 1) ' ' = c := rfl
      have hmem : c ∈ t := by
        rw [hcdef, List.getD_eq_getElem?_getD, List.getElem?_eq_getElem hj]
        simp [List.getElem_mem]
      have hd : d ≠ c := by
        intro he
        exact (List.nodup_cons.mp nd).1 (he ▸ hmem)
      rw [hc]
      simp [indexIn, hd, ih (List.nodup_cons.mp nd).2 j hj]

theorem digitSym_mem (r : Radix) {i : ℕ} (hi : i < r.digits.length) :
    r.digitSym i ∈ r.digits := by
  unfold Radix.digitSym
  rw [List.getD_eq_getElem?_getD, List.getElem?_eq_getElem hi]
  simp [List.getElem_mem]

theorem indexIn_digitSym (r : Radix) (nd : r.digits.Nodup) {i : ℕ}
    (hi : i < r.digits.length) : indexIn r.digits (r.digitSym i) = some i :=
  indexIn_getD r.digits nd i hi

theorem indexIn_append_cons (u w : List Char) (c : Char) (hu : c ∉ u) :
    indexIn (u ++ c :: w) c = some u.length := by
  induction u with
  | nil => simp [indexIn]
  | cons d t ih =>
    have h1 : d ≠ c := by
      intro he
      exact hu (he ▸ List.mem_cons_self d t)
    have h2 : c ∉ t := fun hm => hu (List.mem_cons_of_mem d hm)
    simp [indexIn, h1, ih h2]

theorem eraseIdx_append_length (u w : List Char) (x : Char) :
    (u ++ x :: w).eraseIdx u.length = u ++ w := by
  induction u with
  | nil => simp
  | cons d t ih => simp [List.eraseIdx_cons_succ, ih]

theorem dropWhile_eq_self_of (p : Char → Bool) (l : List Char)
    (h : ∀ c ∈ l, p c = false) : l.dropWhile p = l := by
  cases l with
  | nil => rfl
  | cons d t =>
    rw [List.dropWhile_cons, h d (List.mem_cons_self d t)]
    simp

theorem stripWS_eq_self (l : List Char) (h : ∀ c ∈ l, c.isWhitespace = false) :
    stripWS l = l := by
  unfold stripWS
  rw [dropWhile_eq_self_of _ _ h, dropWhile_eq_self_of, List.reverse_reverse]
  intro c hc
  exact h c (List.mem_reverse.mp hc)

/-! ## Decode lemmas -/

theorem decodeBody_map (r : Radix) (nd : r.digits.Nodup) (I : List ℕ)
    (hv : ∀ i ∈ I, i < r.digits.length) :
    ∀ e, decodeBody r (I.map r.digitSym) e = .val (digitsValQ r.base I e) := by
  induction I with
  | nil => intro e; simp [decodeBody, digitsValQ]
  | cons i t ih =>
    intro e
    have hi := hv i (List.mem_cons_self i t)
    have hrest : ∀ j ∈ t, j < r.digits.length :=
      fun j hj => hv j (List.mem_cons_of_mem i hj)
    simp only [List.map_cons, decodeBody]
    rw [indexIn_digitSym r nd hi, ih hrest (e - 1)]
    simp [digitsValQ]

theorem digitsValQ_ofDigitsBE (b : ℕ) :
    ∀ l : List ℕ, digitsValQ b l ((l.length : ℤ) - 1) = (ofDigitsBE b l : ℚ) := by
  intro l
  induction l with
  | nil => simp [digitsValQ, ofDigitsBE, Nat.ofDigits_nil]
  | cons d t ih =>
    simp only [digitsValQ, List.length_cons]
    have he : ((t.length + 1 : ℕ) : ℤ) - 1 = ((t.length : ℕ) : ℤ) := by push_cast; ring
    rw [he, show ((t.length : ℕ) : ℤ) - 1 = ((t.length : ℕ) : ℤ) - 1 from rfl, ih,
      ofDigitsBE_cons, zpow_natCast]
    push_cast
    ring

theorem decodeBody_err_iff (r : Radix) :
    ∀ (l : List Char) (e : ℤ),
      (∃ c, decodeBody r l e = .err c) ↔ ∃ c ∈ l, indexIn r.digits c = none := by
  intro l
  induction l with
  | nil => intro e; simp [decodeBody]
  | cons c t ih =>
    intro e
    simp only [decodeBody]
    cases hfind : indexIn r.digits c with
    | none =>
      simp only [List.mem_cons]
      constructor
      · intro _
        exact ⟨c, Or.inl rfl, hfind⟩
      · intro _
        exact ⟨c, rfl⟩
    | some i =>
      cases hrec : decodeBody r t (e - 1) with
      | err c2 =>
        have ht : ∃ c3 ∈ t, indexIn r.digits c3 = none := (ih (e - 1)).mp ⟨c2, hrec⟩
        simp only [List.mem_cons]
        constructor
        · intro _
          obtain ⟨c3, hc3, hn⟩ := ht
          exact ⟨c3, Or.inr hc3, hn⟩
        · intro _
          exact ⟨c2, rfl⟩
      | val v =>
        have ht : ¬ ∃ c3 ∈ t, indexIn r.digits c3 = none := by
          rw [← ih (e - 1)]
          rintro ⟨c3, hc3⟩
          rw [hrec] at hc3
          exact DecodeRes.noConfusion hc3
        simp only [List.mem_cons]
        constructor
        · rintro ⟨c3, hc3⟩
          exact DecodeRes.noConfusion hc3
        · rintro ⟨c3, hmem, hn⟩
          rcases hmem with rfl | hc3
          · rw [hfind] at hn
            exact Option.noConfusion hn
          · exact absurd ⟨c3, hc3, hn⟩ ht

/-! ## Template-fill lemmas -/

theorem fill_dash (r : Radix) (t ds : List Char) (lf : Bool) :
    fillTemplate r ('-' :: t) ds lf = r.neg :: fillTemplate r t ds lf := by
  cases lf <;> rfl

theorem fill_dot (r : Radix) (t ds : List Char) (lf : Bool) :
    fillTemplate r ('.' :: t) ds lf = r.sep :: fillTemplate r t ds lf := by
  cases lf <;> rfl

theorem fill_one_false (r : Radix) (t ds' : List Char) (d : Char) :
    fillTemplate r ('1' :: t) (d :: ds') false = d :: fillTemplate r t ds' false := rfl

theorem fill_one_true (r : Radix) (t ds' : List Char) (d : Char) :
    fillTemplate r ('1' :: t) (d :: ds') true = d :: fillTemplate r t ds' false := rfl

theorem fill_rep (r : Radix) :
    ∀ (m : ℕ) (ds t : List Char), m ≤ ds.length →
      fillTemplate r (List.replicate m '1' ++ t) ds false
        = ds.take m ++ fillTemplate r t (ds.drop m) false := by
  intro m
  induction m with
  | zero => intro ds t _; simp
  | succ m ih =>
    intro ds t h
    match ds with
    | [] => simp at h
    | d :: ds' =>
      rw [List.replicate_succ, List.cons_append, fill_one_false,
        ih ds' t (by simpa using h)]
      simp

theorem fill_rep_true (r : Radix) (m : ℕ) (ds t : List Char) (hm : m ≠ 0)
    (h : m ≤ ds.length) :
    fillTemplate r (List.replicate m '1' ++ t) ds true
      = ds.take m ++ fillTemplate r t (ds.drop m) false := by
  match m, ds with
  | m + 1, [] => simp at h
  | m + 1, d :: ds' =>
    rw [List.replicate_succ, List.cons_append, fill_one_true,
      fill_rep r m ds' t (by simpa using h)]
    simp

theorem fillTemplate_nil (r : Radix) (ds : List Char) (lf : Bool) :
    fillTemplate r [] ds lf = [] := rfl

/-- Filling the encode template: the sign symbol, then the first `k` digit
symbols, then (for a positive scale) the separator and the next `scale`
digit symbols. -/
theorem fill_encTemplate (r : Radix) (isNeg : Bool) (k scale : ℕ) (ds : List Char)
    (hk : k ≠ 0) (hlen : k + scale ≤ ds.length) :
    fillTemplate r (encTemplate isNeg k scale) ds true
      = (if isNeg then [r.neg] else []) ++ ds.take k
        ++ (if scale = 0 then [] else r.sep :: (ds.drop k).take scale) := by
  have hk' : k ≤ ds.length := by omega
  have htail : fillTemplate r (if scale = 0 then []
        else '.' :: List.replicate scale '1') (ds.drop k) false
      = (if scale = 0 then [] else r.sep :: (ds.drop k).take scale) := by
    by_cases hs : scale = 0
    · simp [hs, fillTemplate_nil]
    · have hslen : scale ≤ (ds.drop k).length := by
        rw [List.length_drop]
        omega
      simp only [hs, if_false]
      rw [fill_dot, ← List.append_nil (List.replicate scale '1'),
        fill_rep r scale _ _ hslen, fillTemplate_nil, List.append_nil]
  have hmain : fillTemplate r (List.replicate k '1'
        ++ (if scale = 0 then [] else '.' :: List.replicate scale '1')) ds true
      = ds.take k ++ (if scale = 0 then [] else r.sep :: (ds.drop k).take scale) := by
    rw [fill_rep_true r k ds _ hk hk', htail]
  unfold encTemplate
  cases isNeg
  · show fillTemplate r ([] ++ (List.replicate k '1'
        ++ (if scale = 0 then [] else '.' :: List.replicate scale '1'))) ds true = _
    rw [List.nil_append, hmain]
    simp
  · show fillTemplate r ('-' :: (List.replicate k '1'
        ++ (if scale = 0 then [] else '.' :: List.replicate scale '1'))) ds true = _
    rw [fill_dash, hmain]
    simp

/-- The rendered shape of `encode` on an `int` with the default format. -/
theorem encodeInt_eq (r : Radix) (n : ℤ) :
    encodeInt r n
      = (if n < 0 then [r.neg] else [])
        ++ (intIndexes r.base n.natAbs).map r.digitSym := by
  unfold encodeInt
  have hk : (intIndexes r.base n.natAbs).length ≠ 0 := by
    have := intIndexes_length_pos r.base n.natAbs
    omega
  rw [fill_encTemplate r _ _ _ _ hk (by simp)]
  by_cases hn : n < 0 <;>
    simp [hn, List.take_of_length_le]

/-! ## Claim C1: integer round-trip -/

/-- C1: for every well-formed alphabet and every integer `n` (including 0 and
negative `n`), decoding the default-format encoding of `n` returns `n`. -/
theorem decode_encodeInt (r : Radix) (h : goodRadix r) (n : ℤ) :
    decode r (encodeInt r n) = DecodeRes.val (n : ℚ) := by
  obtain ⟨hb, nd, hsep, hneg, hpos, hnp, hsn, hsp, hwsd, hwn, hwp, hws⟩ := h
  set I := intIndexes r.base n.natAbs with hI
  set ds := I.map r.digitSym with hds
  have hv : ∀ i ∈ I, i < r.digits.length := intIndexes_lt hb n.natAbs
  have hmem : ∀ c ∈ ds, c ∈ r.digits := by
    intro c hc
    rw [hds, List.mem_map] at hc
    obtain ⟨i, hiI, rfl⟩ := hc
    exact digitSym_mem r (hv i hiI)
  have hnws : ∀ c ∈ ds, c.isWhitespace = false := fun c hc => hwsd c (hmem c hc)
  have hsepds : r.sep ∉ ds := fun hc => hsep (hmem _ hc)
  have hdsne : ds ≠ [] := by
    simp [hds, hI, intIndexes_ne_nil]
  have hlds : ds.length = I.length := by
    rw [hds, List.length_map]
  have hbody : decodeBody r ds ((ds.length : ℤ) - 1) = .val ((n.natAbs : ℚ)) := by
    have hb' : 2 ≤ r.base := hb
    rw [hds, List.length_map, decodeBody_map r nd I hv, digitsValQ_ofDigitsBE, hI,
      ofDigitsBE_intIndexes hb']
  have hsplit : sepSplit r ds = (ds, (ds.length : ℤ) - 1) := by
    unfold sepSplit
    rw [(indexIn_eq_none_iff ds r.sep).mpr hsepds]
  have h1 : (sepSplit r ds).1 = ds := by rw [hsplit]
  have h2 : (sepSplit r ds).2 = (ds.length : ℤ) - 1 := by rw [hsplit]
  rw [encodeInt_eq, ← hI, ← hds]
  by_cases hn : n < 0
  · have hcast : ((n.natAbs : ℚ)) = -(n : ℚ) := by
      rw [Int.cast_natAbs, abs_of_neg hn]
      push_cast
      ring
    simp only [hn, if_true]
    have hshape : ([r.neg] ++ ds) = r.neg :: ds := rfl
    rw [hshape]
    unfold decode
    rw [stripWS_eq_self (r.neg :: ds) (by
      intro c hc
      rcases List.mem_cons.mp hc with rfl | hc2
      · exact hwn
      · exact hnws c hc2)]
    have hsx : signedTail r (r.neg :: ds) = ds := by
      unfold signedTail
      simp
    rw [hsx, h1, h2, hbody]
    simp [hcast]
  · have hcast : ((n.natAbs : ℚ)) = (n : ℚ) := by
      rw [Int.cast_natAbs, abs_of_nonneg (not_lt.mp hn)]
    simp only [hn, if_false]
    obtain ⟨c0, t0, hct⟩ := List.exists_cons_of_ne_nil hdsne
    have hc0 : c0 ∈ r.digits := hmem c0 (by rw [hct]; exact List.mem_cons_self c0 t0)
    have hc0n : c0 ≠ r.neg := fun he => hneg (he ▸ hc0)
    have hc0p : c0 ≠ r.pos := fun he => hpos (he ▸ hc0)
    have hheadneg : ((ds.head? == some r.neg) : Bool) = false := by
      rw [hct]
      simp only [List.head?_cons]
      simpa using hc0n
    have hheadpos : ((ds.head? == some r.pos) : Bool) = false := by
      rw [hct]
      simp only [List.head?_cons]
      simpa using hc0p
    have hsx : signedTail r ds = ds := by
      unfold signedTail
      simp [hheadneg, hheadpos]
    rw [List.nil_append]
    unfold decode
    rw [stripWS_eq_self ds hnws, hsx, h1, h2, hbody]
    simp [hheadneg, hcast]

/-- C1 witness: the round trip at the base-10 alphabet and `n = -42`. -/
theorem decode_encodeInt_witness :
    goodRadix base10 ∧ decode base10 (encodeInt base10 (-42)) = DecodeRes.val ((-42 : ℤ) : ℚ) :=
  ⟨by decide, decode_encodeInt base10 (by decide) (-42)⟩

/-! ## Claim C5: decode error condition -/

/-- C5 (amended): `decode` fails with `InvalidDigitError` if and only if the
string obtained by consuming the optional leading sign and removing the
*first* separator occurrence still contains a character that is not a digit
symbol; in particular a second separator occurrence also fails. -/
theorem decode_err_iff (r : Radix) (s : List Char) :
    (∃ c, decode r s = .err c)
      ↔ ∃ c ∈ decodeProcessed r s, indexIn r.digits c = none := by
  unfold decode decodeProcessed
  rw [← decodeBody_err_iff r (sepSplit r (signedTail r (stripWS s))).1
    (sepSplit r (signedTail r (stripWS s))).2]
  cases hres : decodeBody r (sepSplit r (signedTail r (stripWS s))).1
      (sepSplit r (signedTail r (stripWS s))).2 with
  | err c => simp
  | val v => simp

/-- C5 counterexample: under the base-10 alphabet, `"1.2.3"` consists only of
digit symbols and separators, yet `decode` raises `InvalidDigitError` on the
second separator — refuting the claimed "if and only if" condition, which
would accept every character of this string. -/
theorem decode_second_sep_cex :
    decode base10 "1.2.3".toList = .err '.'
      ∧ ∀ c ∈ "1.2.3".toList, c ∈ base10.digits ∨ c = base10.sep := by
  decide

/-! ## Claim C6: decode and the encoded-string grammar -/

/-- C6 counterexample: under the base-10 alphabet with the default group
separator, `decode("1,000,000")` raises `InvalidDigitError` on `','` instead
of returning `1000000`: `decode` never skips group separators. -/
theorem decode_grouped_cex :
    decode base10 "1,000,000".toList = .err ',' := by
  decide

/-! ## Claim C7: the by_base preset -/

/-- C7 counterexample: `by_base` never fails.  `by_base(63)` silently clamps
to the 62-symbol pool and `by_base(0)` returns an empty alphabet, where the
claim demands a `RangeError` for both. -/
theorem by_base_no_error_cex :
    (Radix.by_base 63).base = 62 ∧ (Radix.by_base 0).base = 0 := by
  decide

/-- C7 (amended): `by_base(n)` never raises; it returns the alphabet of the
first `min |n| 62` pool symbols `0-9A-Za-z` (so exactly `n` digits for
`1 ≤ n ≤ 62`, an empty alphabet for `n = 0`, and a clamped 62-digit alphabet
beyond the pool; a negative argument acts like its absolute value). -/
theorem by_base_clamps (n : ℤ) :
    (Radix.by_base n).base = min n.natAbs 62 := by
  have hp : poolChars.length = 62 := by decide
  unfold Radix.by_base Radix.init Radix.base
  simp [List.length_take, hp]

/-! ## Claim C8: constructor validation -/

/-- C8 counterexample: construction never fails.  A digit list whose two
digits are both the separator character, and an empty digit list, are both
accepted by `Radix.__init__`, where the claim demands a `ConfigError`. -/
theorem init_collision_cex :
    (Radix.init ['.', '.'] '.' '-' ',' '+' 'e').base = 2
      ∧ (Radix.init [] '.' '-' ',' '+' 'e').base = 0
      ∧ (Radix.init ['.', '.'] '.' '-' ',' '+' 'e').digits = ['.', '.'] := by
  decide

/-- C8 (amended): `Radix.__init__` performs no validation: for every choice
of symbols, colliding, duplicated or empty, construction succeeds and stores
the symbols unchanged (with the base the digit count). -/
theorem init_no_validation (d : List Char) (s n t p e : Char) :
    (Radix.init d s n t p e).base = d.length
      ∧ (Radix.init d s n t p e).digits = d := ⟨rfl, rfl⟩

/-! ## Claim C9: the base invariant -/

/-- C9: `alphabet.base == len(alphabet.digits)` holds at every point of a
`Radix` object's lifetime: the `digits` setter recomputes `_base`, so the
invariant holds for every reachable object, including after reassignment. -/
theorem base_eq_digits_length (r : Radix) (d : List Char) :
    r.base = r.digits.length
      ∧ (r.setDigits d).base = (r.setDigits d).digits.length := ⟨rfl, rfl⟩

/-! ## Claim C10: degenerate decode inputs -/

/-- C10: `decode` of an empty string, of a whitespace-only string, or of a
lone sign character returns 0 rather than raising. -/
theorem decode_degenerate (r : Radix) (s : List Char)
    (hws : ∀ c ∈ s, c.isWhitespace = true) :
    decode r [] = .val 0 ∧ decode r s = .val 0
      ∧ decode r [r.neg] = .val 0 ∧ decode r [r.pos] = .val 0 := by
  have hsempty : stripWS s = [] := by
    unfold stripWS
    rw [List.dropWhile_eq_nil_iff.mpr hws]
    rfl
  have hs : decode r s = DecodeRes.val 0 := by
    unfold decode
    rw [hsempty]
    rfl
  refine ⟨rfl, hs, ?_, ?_⟩
  · by_cases hw : r.neg.isWhitespace = true
    · have hin : List.dropWhile Char.isWhitespace [r.neg] = [] :=
        List.dropWhile_eq_nil_iff.mpr (by
          intro x hx
          rw [List.mem_singleton] at hx
          subst hx
          exact hw)
      have h0 : stripWS [r.neg] = [] := by
        unfold stripWS
        rw [hin]
        rfl
      unfold decode
      rw [h0]
      rfl
    · have h1 : stripWS [r.neg] = [r.neg] := stripWS_eq_self _ (by
        intro c hc
        simp only [List.mem_singleton] at hc
        subst hc
        simpa using hw)
      unfold decode
      rw [h1]
      simp [signedTail, sepSplit, indexIn, decodeBody, neg_zero]
  · by_cases hw : r.pos.isWhitespace = true
    · have hin : List.dropWhile Char.isWhitespace [r.pos] = [] :=
        List.dropWhile_eq_nil_iff.mpr (by
          intro x hx
          rw [List.mem_singleton] at hx
          subst hx
          exact hw)
      have h0 : stripWS [r.pos] = [] := by
        unfold stripWS
        rw [hin]
        rfl
      unfold decode
      rw [h0]
      rfl
    · have h1 : stripWS [r.pos] = [r.pos] := stripWS_eq_self _ (by
        intro c hc
        simp only [List.mem_singleton] at hc
        subst hc
        simpa using hw)
      unfold decode
      rw [h1]
      simp [signedTail, sepSplit, indexIn, decodeBody, neg_zero, Bool.or_true, ite_self]

/-- C10 witness: the degenerate inputs at the base-10 alphabet, with a
two-space whitespace string. -/
theorem decode_degenerate_witness :
    (∀ c ∈ [' ', ' '], c.isWhitespace = true)
      ∧ (decode base10 [] = .val 0 ∧ decode base10 [' ', ' '] = .val 0
        ∧ decode base10 [base10.neg] = .val 0 ∧ decode base10 [base10.pos] = .val 0) :=
  ⟨by decide, decode_degenerate base10 [' ', ' '] (by decide)⟩

/-! ## Fractional digit generation and the carry walk -/

theorem fracDigitsN_length (b fden : ℕ) :
    ∀ S fnum, (fracDigitsN b fden S fnum).1.length = S := by
  intro S
  induction S with
  | zero => intro fnum; rfl
  | succ S ih => intro fnum; simp [fracDigitsN, ih]

theorem fracDigitsN_val {b fden : ℕ} (hden : 0 < fden) :
    ∀ S fnum, fnum < fden →
      ofDigitsBE b (fracDigitsN b fden S fnum).1 = fnum * b ^ S / fden
        ∧ (fracDigitsN b fden S fnum).2 = fnum * b ^ S % fden := by
  intro S
  induction S with
  | zero =>
    intro fnum hf
    constructor
    · show ofDigitsBE b [] = fnum * b ^ 0 / fden
      rw [ofDigitsBE_nil, pow_zero, Nat.mul_one, Nat.div_eq_of_lt hf]
    · show fnum = fnum * b ^ 0 % fden
      rw [pow_zero, Nat.mul_one, Nat.mod_eq_of_lt hf]
  | succ S ih =>
    intro fnum hf
    have hrec := ih ((fnum * b) % fden) (Nat.mod_lt _ hden)
    have key : fnum * b ^ (S + 1)
        = fden * ((fnum * b / fden) * b ^ S) + (fnum * b % fden) * b ^ S := by
      have h0 : fden * (fnum * b / fden) + fnum * b % fden = fnum * b :=
        Nat.div_add_mod _ _
      calc fnum * b ^ (S + 1) = (fnum * b) * b ^ S := by ring
        _ = (fden * (fnum * b / fden) + fnum * b % fden) * b ^ S := by rw [h0]
        _ = fden * ((fnum * b / fden) * b ^ S) + (fnum * b % fden) * b ^ S := by ring
    constructor
    · show ofDigitsBE b ((fnum * b) / fden :: (fracDigitsN b fden S ((fnum * b) % fden)).1)
        = fnum * b ^ (S + 1) / fden
      rw [ofDigitsBE_cons, fracDigitsN_length, hrec.1, key, Nat.mul_add_div hden]
      exact Nat.add_comm _ _
    · show (fracDigitsN b fden S ((fnum * b) % fden)).2 = fnum * b ^ (S + 1) % fden
      rw [hrec.2, key, Nat.mul_add_mod]

theorem fracDigitsN_lt {b fden : ℕ} (hb : 0 < b) (hden : 0 < fden) :
    ∀ S fnum, fnum < fden → ∀ d ∈ (fracDigitsN b fden S fnum).1, d < b := by
  intro S
  induction S with
  | zero => intro fnum _ d hd; simp [fracDigitsN] at hd
  | succ S ih =>
    intro fnum hf d hd
    rw [show (fracDigitsN b fden (S + 1) fnum).1
        = (fnum * b) / fden :: (fracDigitsN b fden S ((fnum * b) % fden)).1 from rfl] at hd
    rcases List.mem_cons.mp hd with rfl | hd2
    · rw [Nat.div_lt_iff_lt_mul hden]
      calc fnum * b < fden * b := (Nat.mul_lt_mul_right hb).mpr hf
        _ = b * fden := Nat.mul_comm _ _
    · exact ih ((fnum * b) % fden) (Nat.mod_lt _ hden) d hd2

theorem incAux_ofDigits (b : ℕ) :
    ∀ l : List ℕ, (∀ d ∈ l, d < b) →
      Nat.ofDigits b (incAux b l) = Nat.ofDigits b l + 1 := by
  intro l
  induction l with
  | nil =>
    intro _
    simp [incAux, Nat.ofDigits_singleton, Nat.ofDigits_nil]
  | cons d t ih =>
    intro h
    by_cases hd : d + 1 = b
    · rw [show incAux b (d :: t) = 0 :: incAux b t from by simp [incAux, hd],
        Nat.ofDigits_cons, Nat.ofDigits_cons,
        ih (fun x hx => h x (List.mem_cons_of_mem _ hx)), ← hd]
      ring
    · rw [show incAux b (d :: t) = (d + 1) :: t from by simp [incAux, hd],
        Nat.ofDigits_cons, Nat.ofDigits_cons]
      ring

theorem incAux_lt (b : ℕ) (hb : 2 ≤ b) :
    ∀ l : List ℕ, (∀ d ∈ l, d < b) → ∀ d ∈ incAux b l, d < b := by
  intro l
  induction l with
  | nil =>
    intro _ d hd
    simp [incAux] at hd
    omega
  | cons x t ih =>
    intro h d hd
    by_cases hx : x + 1 = b
    · rw [show incAux b (x :: t) = 0 :: incAux b t from by simp [incAux, hx]] at hd
      rcases List.mem_cons.mp hd with rfl | hd2
      · omega
      · exact ih (fun y hy => h y (List.mem_cons_of_mem _ hy)) d hd2
    · rw [show incAux b (x :: t) = (x + 1) :: t from by simp [incAux, hx]] at hd
      rcases List.mem_cons.mp hd with rfl | hd2
      · have := h x (List.mem_cons_self x t)
        omega
      · exact h d (List.mem_cons_of_mem _ hd2)

theorem incAux_length_ge (b : ℕ) : ∀ l : List ℕ, l.length ≤ (incAux b l).length := by
  intro l
  induction l with
  | nil => simp [incAux]
  | cons x t ih =>
    by_cases hx : x + 1 = b
    · rw [show incAux b (x :: t) = 0 :: incAux b t from by simp [incAux, hx]]
      simp only [List.length_cons]
      omega
    · rw [show incAux b (x :: t) = (x + 1) :: t from by simp [incAux, hx]]
      simp

theorem incDigits_ofDigitsBE (b : ℕ) (l : List ℕ) (h : ∀ d ∈ l, d < b) :
    ofDigitsBE b (incDigits b l) = ofDigitsBE b l + 1 := by
  unfold incDigits ofDigitsBE
  rw [List.reverse_reverse]
  exact incAux_ofDigits b l.reverse (fun d hd => h d (List.mem_reverse.mp hd))

theorem incDigits_lt (b : ℕ) (hb : 2 ≤ b) (l : List ℕ) (h : ∀ d ∈ l, d < b) :
    ∀ d ∈ incDigits b l, d < b := by
  intro d hd
  unfold incDigits at hd
  rw [List.mem_reverse] at hd
  exact incAux_lt b hb l.reverse (fun y hy => h y (List.mem_reverse.mp hy)) d hd

theorem incDigits_length_ge (b : ℕ) (l : List ℕ) :
    l.length ≤ (incDigits b l).length := by
  unfold incDigits
  rw [List.length_reverse, ← List.length_reverse l]
  exact incAux_length_ge b l.reverse

theorem roundedIndexes_lt {b ip fnum fden S : ℕ} (hb : 2 ≤ b) (hden : 0 < fden)
    (hf : fnum < fden) : ∀ d ∈ roundedIndexes b ip fnum fden S, d < b := by
  intro d hd
  have hall : ∀ x ∈ intIndexes b ip ++ (fracDigitsN b fden S fnum).1, x < b := by
    intro x hx
    rcases List.mem_append.mp hx with h1 | h2
    · exact intIndexes_lt hb ip x h1
    · exact fracDigitsN_lt (by omega) hden S fnum hf x h2
  unfold roundedIndexes at hd
  split at hd
  · exact incDigits_lt b hb _ hall d hd
  · exact hall d hd

theorem roundedIndexes_length_ge (b ip fnum fden S : ℕ) :
    (intIndexes b ip).length + S ≤ (roundedIndexes b ip fnum fden S).length := by
  unfold roundedIndexes
  split
  · calc (intIndexes b ip).length + S
        = (intIndexes b ip ++ (fracDigitsN b fden S fnum).1).length := by
          simp [fracDigitsN_length]
      _ ≤ _ := incDigits_length_ge _ _
  · simp [fracDigitsN_length]

/-! ## Floor/fraction bridges -/

theorem floor_natCast_div (a c : ℕ) (hc : 0 < c) :
    ⌊(a : ℚ) / (c : ℚ)⌋ = ((a / c : ℕ) : ℤ) := by
  have hc' : (0 : ℚ) < (c : ℚ) := by exact_mod_cast hc
  rw [Int.floor_eq_iff]
  constructor
  · rw [le_div_iff₀ hc']
    exact_mod_cast Nat.div_mul_le_self a c
  · rw [div_lt_iff₀ hc']
    have hmod : c * (a / c) + a % c = a := Nat.div_add_mod a c
    have hlt : a % c < c := Nat.mod_lt a hc
    have : a < (a / c + 1) * c := by
      calc a = c * (a / c) + a % c := hmod.symm
        _ < c * (a / c) + c := by omega
        _ = (a / c + 1) * c := by ring
    push_cast
    exact_mod_cast this

theorem fract_natCast_div (a c : ℕ) (hc : 0 < c) :
    Int.fract ((a : ℚ) / (c : ℚ)) = ((a % c : ℕ) : ℚ) / (c : ℚ) := by
  have hc' : ((c : ℚ)) ≠ 0 := by
    have h0 : (0 : ℚ) < (c : ℚ) := by exact_mod_cast hc
    exact h0.ne'
  have hmod : c * (a / c) + a % c = a := Nat.div_add_mod a c
  have key : (c : ℚ) * ((a / c : ℕ) : ℚ) + ((a % c : ℕ) : ℚ) = (a : ℚ) := by
    exact_mod_cast hmod
  rw [Int.fract, floor_natCast_div a c hc, Int.cast_natCast]
  field_simp
  linarith [key]

/-! ## Claim C3: the rounding rule at a fixed scale -/

/-- C3 (amended): with a fixed scale `S`, the digit list `encode` renders
(integer digits, `S` fractional digits, then the conditional carry walk)
denotes exactly `⌊x·bˢ⌋ + 1` when the discarded remainder *strictly* exceeds
half a unit in the last retained place, and `⌊x·bˢ⌋` otherwise — where
`x = ip + fnum/fden` is the encoded magnitude.  So carries propagate
leftward through the fractional and integer digits as claimed, but the
rounding rule is `fraction > 0.5`, not the claimed `≥ base/2`: an exact
half-unit remainder is truncated. -/
theorem roundedIndexes_val (b ip fnum fden S : ℕ) (hb : 2 ≤ b) (hden : 0 < fden)
    (hf : fnum < fden) :
    (ofDigitsBE b (roundedIndexes b ip fnum fden S) : ℤ)
      = ⌊((ip : ℚ) + (fnum : ℚ) / (fden : ℚ)) * (b : ℚ) ^ S⌋
        + (if (1 : ℚ) / 2
              < Int.fract (((ip : ℚ) + (fnum : ℚ) / (fden : ℚ)) * (b : ℚ) ^ S)
            then 1 else 0) := by
  have hval := @fracDigitsN_val b fden hden S fnum hf
  have hden' : (0 : ℚ) < (fden : ℚ) := by exact_mod_cast hden
  have hx : ((ip : ℚ) + (fnum : ℚ) / (fden : ℚ)) * (b : ℚ) ^ S
      = ((ip * b ^ S : ℕ) : ℚ) + ((fnum * b ^ S : ℕ) : ℚ) / ((fden : ℕ) : ℚ) := by
    push_cast
    field_simp
    ring
  have hfloor : ⌊((ip : ℚ) + (fnum : ℚ) / (fden : ℚ)) * (b : ℚ) ^ S⌋
      = ((ip * b ^ S : ℕ) : ℤ) + ((fnum * b ^ S / fden : ℕ) : ℤ) := by
    rw [hx, Int.floor_nat_add, floor_natCast_div _ _ hden]
  have hfract : Int.fract (((ip : ℚ) + (fnum : ℚ) / (fden : ℚ)) * (b : ℚ) ^ S)
      = ((fnum * b ^ S % fden : ℕ) : ℚ) / (fden : ℚ) := by
    rw [hx, Int.fract_nat_add, fract_natCast_div _ _ hden]
  have hcond : ((1 : ℚ) / 2
        < Int.fract (((ip : ℚ) + (fnum : ℚ) / (fden : ℚ)) * (b : ℚ) ^ S))
      ↔ fden < 2 * (fnum * b ^ S % fden) := by
    rw [hfract, div_lt_div_iff (by norm_num) hden', one_mul]
    constructor
    · intro h
      have h2 : fden < (fnum * b ^ S % fden) * 2 := by exact_mod_cast h
      omega
    · intro h
      have h2 : fden < (fnum * b ^ S % fden) * 2 := by omega
      exact_mod_cast h2
  have hall : ∀ x ∈ intIndexes b ip ++ (fracDigitsN b fden S fnum).1, x < b := by
    intro x hx2
    rcases List.mem_append.mp hx2 with h1 | h2
    · exact intIndexes_lt hb ip x h1
    · exact fracDigitsN_lt (by omega) hden S fnum hf x h2
  have happ : (ofDigitsBE b (intIndexes b ip ++ (fracDigitsN b fden S fnum).1) : ℤ)
      = ((ip * b ^ S : ℕ) : ℤ) + ((fnum * b ^ S / fden : ℕ) : ℤ) := by
    rw [ofDigitsBE_append, fracDigitsN_length, ofDigitsBE_intIndexes hb, hval.1]
    push_cast
    ring
  unfold roundedIndexes
  by_cases hc : fden < 2 * (fracDigitsN b fden S fnum).2
  · have hc2 : fden < 2 * (fnum * b ^ S % fden) := by
      rw [← hval.2]
      exact hc
    rw [if_pos hc, hfloor, if_pos (hcond.mpr hc2), incDigits_ofDigitsBE b _ hall,
      Nat.cast_add, Nat.cast_one, happ]
  · have hc2 : ¬ fden < 2 * (fnum * b ^ S % fden) := by
      rw [← hval.2]
      exact hc
    rw [if_neg hc, hfloor, if_neg (fun hcc => hc2 (hcond.mp hcc)), happ]
    ring

/-- C3 witness: base 10, magnitude `9 + 31/32 = 9.96875` (exact in binary64),
scale 1: the remainder `0.6875` exceeds one half, so the rendered digits
denote `⌊99.6875⌋ + 1 = 100`, the carry having propagated into a new leading
digit. -/
theorem roundedIndexes_val_witness :
    2 ≤ 10 ∧ 0 < 32 ∧ 31 < 32
      ∧ (ofDigitsBE 10 (roundedIndexes 10 9 31 32 1) : ℤ)
          = ⌊(((9 : ℕ) : ℚ) + ((31 : ℕ) : ℚ) / ((32 : ℕ) : ℚ)) * ((10 : ℕ) : ℚ) ^ 1⌋
            + (if (1 : ℚ) / 2
                  < Int.fract ((((9 : ℕ) : ℚ) + ((31 : ℕ) : ℚ) / ((32 : ℕ) : ℚ))
                      * ((10 : ℕ) : ℚ) ^ 1)
                then 1 else 0) :=
  ⟨by decide, by decide, by decide,
    roundedIndexes_val 10 9 31 32 1 (by decide) (by decide) (by decide)⟩

/-- C3 counterexample: `0.25` (exact in binary64) encoded at scale 1 in base
10.  The first unretained digit would be 5 = base/2, so the claim demands
rounding up to `"0.3"`; the code tests `fraction > 0.5` strictly and
produces `"0.2"`. -/
theorem round_half_truncates_cex :
    encodeFloat base10 1 4 (some 1) = some ['0', '.', '2']
      ∧ encodeFloat base10 1 4 (some 1) ≠ some ['0', '.', '3'] := by
  decide

/-! ## Claim C4: carry out of the most significant digit -/

/-- C4: evaluation at the failing inputs.  `encode(9.96875, 1)` (all float
steps exact) carries out of the most significant digit; the carry walk does
insert a leading 1, but `_fill_template`'s template still has only two digit
slots, so the trailing digit is dropped and the code returns `"1.0"` instead
of the claimed `"10.0"`.  And `encode(9.5, 0)` does not round at all — a
scale of 0 is falsy, so the format is treated as absent and the code returns
`"9.5"` where the claim's scale-0 example demands `"10"`. -/
theorem carry_overflow_cex :
    encodeFloat base10 319 32 (some 1) = some ['1', '.', '0']
      ∧ encodeFloat base10 319 32 (some 1) ≠ some ['1', '0', '.', '0']
      ∧ encodeFloat base10 19 2 (some 0) = some ['9', '.', '5'] := by
  decide

/-! ## Claim C2: trailing-zero stripping -/

/-- C2 counterexample: `2·10¹⁶` is an exactly representable float with 17
integer digits, so the auto scale `17 - 17 = 0` produces no separator; the
trailing-zero strip then eats the integer part and `encode(2e16)` returns
`"2"`, not the 17 integer digits of the value. -/
theorem strip_integer_digits_cex :
    encodeFloat base10 (2 * 10 ^ 16) 1 none = some ['2']
      ∧ (intIndexes base10.base ((2 * 10 ^ 16 : ℤ).natAbs / 1)).length = 17 := by
  decide

theorem dropWhile_append_of_neg (p : Char → Bool) (u w : List Char) (x : Char)
    (hx : p x = false) :
    List.dropWhile p (u ++ x :: w) = List.dropWhile p u ++ x :: w := by
  induction u with
  | nil => simp [List.dropWhile_cons, hx]
  | cons c t ih =>
    by_cases hc : p c = true
    · simp [List.dropWhile_cons, hc, ih]
    · have hc' : p c = false := by
        cases hpc : p c
        · rfl
        · exact absurd hpc hc
      simp [List.dropWhile_cons, hc']

/-- Lines 278–281 applied to an output with a separator: the strip never
crosses the separator, so everything before it survives; if all fractional
digits are stripped a zero digit is re-appended after the separator. -/
theorem stripOut_split (r : Radix) (a bl : List Char)
    (hzsep : ((r.sep == r.digitSym 0) : Bool) = false) (hbl : r.sep ∉ bl) :
    ∃ t, stripOut r (a ++ r.sep :: bl) = a ++ r.sep :: t := by
  unfold stripOut
  have hrev : (a ++ r.sep :: bl).reverse = bl.reverse ++ r.sep :: a.reverse := by
    simp
  rw [hrev, dropWhile_append_of_neg (· == r.digitSym 0) bl.reverse a.reverse r.sep hzsep]
  cases hdw : List.dropWhile (· == r.digitSym 0) bl.reverse with
  | nil =>
    refine ⟨[r.digitSym 0], ?_⟩
    simp
  | cons y ys =>
    have hymem : y ∈ bl := by
      have h1 : y ∈ List.dropWhile (· == r.digitSym 0) bl.reverse := by
        rw [hdw]
        exact List.mem_cons_self y ys
      exact List.mem_reverse.mp ((List.dropWhile_sublist _).subset h1)
    have hyne : ¬ (((y :: ys) ++ r.sep :: a.reverse).head? = some r.sep) := by
      simp only [List.cons_append, List.head?_cons]
      intro he
      exact hbl (Option.some.inj he ▸ hymem)
    refine ⟨(y :: ys).reverse, ?_⟩
    rw [if_neg hyne]
    simp

/-- C2 (amended): with no explicit format, the trailing-zero strip runs over
the whole output string but cannot cross the separator; since the separator
is present whenever the integer part has at most 16 digits (auto scale
`17 - k ≥ 1`), the `k` digit symbols before the separator — the rendered
integer digits — are never removed in that range.  (With 17 integer digits
the auto scale is 0, no separator is emitted, and trailing zero *integer*
digits are stripped, as the counterexample shows.) -/
theorem encode_auto_keeps_integer_digits (r : Radix) (hg : goodRadix r)
    (num : ℤ) (den : ℕ) (hden : 0 < den) (k : ℕ)
    (hk : k = (intIndexes r.base (num.natAbs / den)).length) (hk16 : k ≤ 16) :
    ∃ t, encodeFloat r num den none
      = some (((if num < 0 then [r.neg] else [])
          ++ ((roundedIndexes r.base (num.natAbs / den) (num.natAbs % den) den
              (17 - k)).take k).map r.digitSym)
          ++ r.sep :: t) := by
  obtain ⟨hb, nd, hsep, hneg, hpos, hnp, hsn, hsp, hwsd, hwn, hwp, hws⟩ := hg
  have hb' : 2 ≤ r.base := hb
  have hfnum : num.natAbs % den < den := Nat.mod_lt _ hden
  have hS0 : 17 - k ≠ 0 := by omega
  have hklen : k ≠ 0 := by
    have := intIndexes_length_pos r.base (num.natAbs / den)
    omega
  have hlen : k + (17 - k)
      ≤ ((roundedIndexes r.base (num.natAbs / den) (num.natAbs % den) den
          (17 - k)).map r.digitSym).length := by
    rw [List.length_map]
    have := roundedIndexes_length_ge r.base (num.natAbs / den) (num.natAbs % den)
      den (17 - k)
    omega
  have hvalid : ∀ c ∈ (roundedIndexes r.base (num.natAbs / den) (num.natAbs % den)
      den (17 - k)).map r.digitSym, c ∈ r.digits := by
    intro c hc
    rw [List.mem_map] at hc
    obtain ⟨i, hiRI, rfl⟩ := hc
    exact digitSym_mem r (roundedIndexes_lt hb' hden hfnum i hiRI)
  set ds := (roundedIndexes r.base (num.natAbs / den) (num.natAbs % den) den
    (17 - k)).map r.digitSym with hds
  have hcore : encodeCore r (decide (num < 0)) (num.natAbs / den) (num.natAbs % den)
      den (17 - k)
      = ((if num < 0 then [r.neg] else []) ++ ds.take k)
        ++ r.sep :: (ds.drop k).take (17 - k) := by
    unfold encodeCore
    rw [← hk, ← hds, fill_encTemplate r _ k (17 - k) ds hklen hlen, if_neg hS0]
    by_cases hn : num < 0 <;> simp [hn, List.append_assoc]
  have hsepds : r.sep ∉ (ds.drop k).take (17 - k) := by
    intro hmem
    exact hsep (hvalid _ (List.drop_subset k ds (List.take_subset (17 - k) _ hmem)))
  have hzsep : ((r.sep == r.digitSym 0) : Bool) = false := by
    have hz : r.digitSym 0 ∈ r.digits := digitSym_mem r (by omega)
    have hne : r.sep ≠ r.digitSym 0 := fun he => hsep (he ▸ hz)
    simpa using hne
  obtain ⟨t, ht⟩ := stripOut_split r ((if num < 0 then [r.neg] else []) ++ ds.take k)
    ((ds.drop k).take (17 - k)) hzsep hsepds
  refine ⟨t, ?_⟩
  have hsz : autoScaleZ r.base (num.natAbs / den) = (17 : ℤ) - (k : ℤ) := by
    rw [autoScaleZ, ← hk]
  have hszn : ¬ (autoScaleZ r.base (num.natAbs / den) < 0) := by
    rw [hsz]
    omega
  have hszt : (autoScaleZ r.base (num.natAbs / den)).toNat = 17 - k := by
    rw [hsz]
    omega
  have hstep : encodeFloat r num den none
      = some (stripOut r (encodeCore r (decide (num < 0)) (num.natAbs / den)
          (num.natAbs % den) den (autoScaleZ r.base (num.natAbs / den)).toNat)) := by
    unfold encodeFloat
    simp only [eq_self_iff_true, true_or, if_true, if_neg hszn]
  rw [hstep, hszt, hcore, ht, hds, ← List.map_take]

/-- C2 witness: encoding the float `100.0` keeps all three integer digits,
followed by the separator (the output is `"100.0"`). -/
theorem encode_auto_keeps_integer_digits_witness :
    goodRadix base10 ∧ 0 < 1
      ∧ (3 : ℕ) = (intIndexes base10.base ((100 : ℤ).natAbs / 1)).length
      ∧ (3 : ℕ) ≤ 16
      ∧ ∃ t, encodeFloat base10 100 1 none
          = some (((if (100 : ℤ) < 0 then [base10.neg] else [])
              ++ ((roundedIndexes base10.base ((100 : ℤ).natAbs / 1)
                  ((100 : ℤ).natAbs % 1) 1 (17 - 3)).take 3).map base10.digitSym)
              ++ base10.sep :: t) :=
  ⟨by decide, by decide, by decide, by decide,
    encode_auto_keeps_integer_digits base10 (by decide) 100 1 (by decide) 3
      (by decide) (by decide)⟩

/-! ## Claim C6 (amended): the group-free grammar -/

/-- Sign handling of `Radix.decode` over an already-analysed body: for a
body free of leading whitespace whose head is neither sign symbol, an
optional leading sign is consumed and only negates the digit-loop value. -/
theorem decode_with_sign (r : Radix) (body : List Char) (v : ℚ)
    (hbodyws : ∀ c ∈ body, c.isWhitespace = false)
    (hwn : r.neg.isWhitespace = false) (hwp : r.pos.isWhitespace = false)
    (hnp : r.neg ≠ r.pos)
    (hheadn : ((body.head? == some r.neg) : Bool) = false)
    (hheadp : ((body.head? == some r.pos) : Bool) = false)
    (hval : decodeBody r (sepSplit r body).1 (sepSplit r body).2 = .val v)
    (sg : List Char) (hsg : sg = [] ∨ sg = [r.neg] ∨ sg = [r.pos]) :
    decode r (sg ++ body) = .val ((if sg = [r.neg] then -1 else 1) * v) := by
  rcases hsg with rfl | rfl | rfl
  · rw [List.nil_append]
    unfold decode
    rw [stripWS_eq_self body hbodyws]
    have hsx : signedTail r body = body := by
      unfold signedTail
      rw [hheadn, hheadp]
      rfl
    rw [hsx, hval, hheadn]
    have hne : ([] : List Char) ≠ [r.neg] := by simp
    simp [if_neg hne]
  · have hshape : [r.neg] ++ body = r.neg :: body := rfl
    rw [hshape]
    unfold decode
    rw [stripWS_eq_self (r.neg :: body) (by
      intro c hc
      rcases List.mem_cons.mp hc with rfl | hc2
      · exact hwn
      · exact hbodyws c hc2)]
    have hsx : signedTail r (r.neg :: body) = body := by
      unfold signedTail
      simp
    rw [hsx, hval]
    simp
  · have hshape : [r.pos] ++ body = r.pos :: body := rfl
    rw [hshape]
    unfold decode
    rw [stripWS_eq_self (r.pos :: body) (by
      intro c hc
      rcases List.mem_cons.mp hc with rfl | hc2
      · exact hwp
      · exact hbodyws c hc2)]
    have hpn : ((some r.pos == some r.neg) : Bool) = false := by
      simp only [beq_eq_false_iff_ne, ne_eq, Option.some.injEq]
      exact fun he => hnp he.symm
    have hsx : signedTail r (r.pos :: body) = body := by
      unfold signedTail
      simp [hpn]
    rw [hsx, hval]
    simp only [List.head?_cons, hpn, Bool.false_eq_true, if_false]
    have hne2 : ¬ (r.pos = r.neg) := fun he => hnp he.symm
    simp [hne2]

/-- C6 (amended): `decode` accepts every string of the grammar
`[sign] digit* [separator digit*]` — optional sign, digit run, and an
*optional* separator-plus-digit-run — and returns its positional value;
but it does *not* accept group separators (see the counterexample): the
grammar `decode` accepts has no `group_separator` production. -/
theorem decode_plain_grammar (r : Radix) (hg : goodRadix r)
    (sg : List Char) (hsg : sg = [] ∨ sg = [r.neg] ∨ sg = [r.pos])
    (I : List ℕ) (hI : ∀ i ∈ I, i < r.digits.length)
    (fracPart : Option (List ℕ))
    (hF : ∀ i ∈ fracPart.getD [], i < r.digits.length) :
    decode r (sg ++ (I.map r.digitSym
        ++ (match fracPart with
            | none => []
            | some F => r.sep :: F.map r.digitSym)))
      = .val ((if sg = [r.neg] then -1 else 1)
          * digitsValQ r.base (I ++ fracPart.getD []) ((I.length : ℤ) - 1)) := by
  obtain ⟨hb, nd, hsep, hneg, hpos, hnp, hsn, hsp, hwsd, hwn, hwp, hws⟩ := hg
  have humem : ∀ c ∈ I.map r.digitSym, c ∈ r.digits := by
    intro c hc
    rw [List.mem_map] at hc
    obtain ⟨i, hi, rfl⟩ := hc
    exact digitSym_mem r (hI i hi)
  cases fracPart with
  | none =>
    show decode r (sg ++ (I.map r.digitSym ++ []))
      = .val ((if sg = [r.neg] then -1 else 1)
          * digitsValQ r.base (I ++ []) ((I.length : ℤ) - 1))
    rw [List.append_nil, List.append_nil]
    have huws : ∀ c ∈ I.map r.digitSym, c.isWhitespace = false :=
      fun c hc => hwsd c (humem c hc)
    have hsepu : r.sep ∉ I.map r.digitSym := fun hm => hsep (humem _ hm)
    have hsplitu : sepSplit r (I.map r.digitSym)
        = (I.map r.digitSym, (((I.map r.digitSym).length : ℕ) : ℤ) - 1) := by
      unfold sepSplit
      rw [(indexIn_eq_none_iff (I.map r.digitSym) r.sep).mpr hsepu]
    have hp1 : (sepSplit r (I.map r.digitSym)).1 = I.map r.digitSym := by
      rw [hsplitu]
    have hp2 : (sepSplit r (I.map r.digitSym)).2
        = (((I.map r.digitSym).length : ℕ) : ℤ) - 1 := by
      rw [hsplitu]
    have hval : decodeBody r (sepSplit r (I.map r.digitSym)).1
        (sepSplit r (I.map r.digitSym)).2
        = .val (digitsValQ r.base I ((I.length : ℤ) - 1)) := by
      rw [hp1, hp2, List.length_map, decodeBody_map r nd I hI]
    have hheadn : (((I.map r.digitSym).head? == some r.neg) : Bool) = false := by
      cases hu0 : I.map r.digitSym with
      | nil => rfl
      | cons c0 t0 =>
        have hc0 : c0 ∈ r.digits :=
          humem c0 (by rw [hu0]; exact List.mem_cons_self c0 t0)
        simp only [List.head?_cons, beq_eq_false_iff_ne, ne_eq, Option.some.injEq]
        exact fun he => hneg (he ▸ hc0)
    have hheadp : (((I.map r.digitSym).head? == some r.pos) : Bool) = false := by
      cases hu0 : I.map r.digitSym with
      | nil => rfl
      | cons c0 t0 =>
        have hc0 : c0 ∈ r.digits :=
          humem c0 (by rw [hu0]; exact List.mem_cons_self c0 t0)
        simp only [List.head?_cons, beq_eq_false_iff_ne, ne_eq, Option.some.injEq]
        exact fun he => hpos (he ▸ hc0)
    exact decode_with_sign r (I.map r.digitSym) _ huws hwn hwp hnp hheadn hheadp
      hval sg hsg
  | some F =>
    show decode r (sg ++ (I.map r.digitSym ++ r.sep :: F.map r.digitSym))
      = .val ((if sg = [r.neg] then -1 else 1)
          * digitsValQ r.base (I ++ F) ((I.length : ℤ) - 1))
    have hF' : ∀ i ∈ F, i < r.digits.length := hF
    have hwmem : ∀ c ∈ F.map r.digitSym, c ∈ r.digits := by
      intro c hc
      rw [List.mem_map] at hc
      obtain ⟨i, hi, rfl⟩ := hc
      exact digitSym_mem r (hF' i hi)
    set body := I.map r.digitSym ++ r.sep :: F.map r.digitSym with hbody
    have hbodyws : ∀ c ∈ body, c.isWhitespace = false := by
      intro c hc
      rw [hbody] at hc
      rcases List.mem_append.mp hc with h1 | h2
      · exact hwsd c (humem c h1)
      · rcases List.mem_cons.mp h2 with rfl | h3
        · exact hws
        · exact hwsd c (hwmem c h3)
    have hidx : indexIn body r.sep = some (I.map r.digitSym).length := by
      rw [hbody]
      exact indexIn_append_cons _ _ _ (fun hm => hsep (humem _ hm))
    have hsplitb : sepSplit r body
        = (I.map r.digitSym ++ F.map r.digitSym, ((I.length : ℕ) : ℤ) - 1) := by
      have he : (List.map r.digitSym I ++ r.sep :: List.map r.digitSym F).eraseIdx
          I.length = List.map r.digitSym I ++ List.map r.digitSym F := by
        have h0 := eraseIdx_append_length (List.map r.digitSym I)
          (List.map r.digitSym F) r.sep
        rwa [List.length_map] at h0
      unfold sepSplit
      rw [hidx, hbody]
      simp [he, List.length_map]
    have hp1 : (sepSplit r body).1 = I.map r.digitSym ++ F.map r.digitSym := by
      rw [hsplitb]
    have hp2 : (sepSplit r body).2 = ((I.length : ℕ) : ℤ) - 1 := by
      rw [hsplitb]
    have hval : decodeBody r (sepSplit r body).1 (sepSplit r body).2
        = .val (digitsValQ r.base (I ++ F) ((I.length : ℤ) - 1)) := by
      rw [hp1, hp2, ← List.map_append, decodeBody_map r nd (I ++ F) (by
        intro i hi
        rcases List.mem_append.mp hi with h1 | h2
        · exact hI i h1
        · exact hF' i h2)]
    have hheadne : ((body.head? == some r.neg) : Bool) = false
        ∧ ((body.head? == some r.pos) : Bool) = false := by
      rw [hbody]
      cases hI0 : I.map r.digitSym with
      | nil =>
        simp only [hI0, List.nil_append, List.head?_cons]
        constructor
        · simp only [beq_eq_false_iff_ne, ne_eq, Option.some.injEq]
          exact hsn
        · simp only [beq_eq_false_iff_ne, ne_eq, Option.some.injEq]
          exact hsp
      | cons c0 t0 =>
        have hc0 : c0 ∈ r.digits :=
          humem c0 (by rw [hI0]; exact List.mem_cons_self c0 t0)
        simp only [hI0, List.cons_append, List.head?_cons]
        constructor
        · simp only [beq_eq_false_iff_ne, ne_eq, Option.some.injEq]
          exact fun he => hneg (he ▸ hc0)
        · simp only [beq_eq_false_iff_ne, ne_eq, Option.some.injEq]
          exact fun he => hpos (he ▸ hc0)
    exact decode_with_sign r body _ hbodyws hwn hwp hnp hheadne.1 hheadne.2
      hval sg hsg

/-- C6 witness: under the base-10 alphabet, `decode("10.5")` returns the
positional value `1·10¹ + 0·10⁰ + 5·10⁻¹`, and the separator-free signed
string `decode("+42")` returns `4·10¹ + 2·10⁰`. -/
theorem decode_plain_grammar_witness :
    goodRadix base10
      ∧ (∀ i ∈ ([1, 0] : List ℕ), i < base10.digits.length)
      ∧ (∀ i ∈ ((some [5] : Option (List ℕ)).getD []), i < base10.digits.length)
      ∧ (∀ i ∈ ([4, 2] : List ℕ), i < base10.digits.length)
      ∧ (∀ i ∈ ((none : Option (List ℕ)).getD []), i < base10.digits.length)
      ∧ decode base10 ([] ++ (([1, 0] : List ℕ).map base10.digitSym
          ++ base10.sep :: ([5] : List ℕ).map base10.digitSym))
        = .val ((if ([] : List Char) = [base10.neg] then -1 else 1)
            * digitsValQ base10.base ([1, 0] ++ [5]) ((([1, 0] : List ℕ).length : ℤ) - 1))
      ∧ decode base10 ([base10.pos] ++ (([4, 2] : List ℕ).map base10.digitSym ++ []))
        = .val ((if [base10.pos] = [base10.neg] then -1 else 1)
            * digitsValQ base10.base ([4, 2] ++ []) ((([4, 2] : List ℕ).length : ℤ) - 1)) :=
  ⟨by decide, by decide, by decide, by decide, by decide,
    decode_plain_grammar base10 (by decide) [] (Or.inl rfl) [1, 0] (by decide)
      (some [5]) (by decide),
    decode_plain_grammar base10 (by decide) [base10.pos] (Or.inr (Or.inr rfl))
      [4, 2] (by decide) none (by decide)⟩
